import Mathlib

/-!
Shallow embedding of the course-schedule plugin (`src/main.py`) and proofs
about its schedule-resolution core: calendar parsing with timezone
normalization (`_parse_ics_file`), the single-user "today" view
(`show_today_schedule`), and the group current/next aggregation
(`show_group_schedule`).
-/

/-- A Python `datetime` value.  `wall` is the wall-clock reading measured in
minutes on a linear scale (so the civil date is `wall / 1440` by floor
division), and `tz` is the attached UTC offset in minutes (`none` models a
naive datetime, i.e. `tzinfo is None`). -/
structure PyDateTime where
  wall : Int
  tz : Option Int
deriving DecidableEq, Repr

/-- Minutes in a civil day. -/
def minutesPerDay : Int := 1440

/-- The fixed offset `timezone(timedelta(hours=8))` used throughout
`main.py`, in minutes. -/
def tzShanghai : Int := 480

/-- Absolute instant of a datetime: wall clock minus offset.  Python compares
aware datetimes by this value; naive datetimes (offset `none`) are compared
by wall clock, which the `getD 0` default reproduces. -/
def PyDateTime.instant (d : PyDateTime) : Int := d.wall - d.tz.getD 0

/-- Python `datetime.date()`: the civil date of the wall-clock reading,
as a day number. -/
def PyDateTime.date (d : PyDateTime) : Int := Int.fdiv d.wall minutesPerDay

/-- The value of a `DTSTART`/`DTEND` property (`component.get(...).dt`):
either a `datetime` or a date-only (all-day) `date` value. -/
inductive DtValue where
  | dt (d : PyDateTime)
  | dateOnly (day : Int)
deriving DecidableEq, Repr

/-- One sub-component produced by `cal.walk()`: its component name and the
fields `_parse_ics_file` reads.  `component.get` returns `none` when the
property is absent. -/
structure VComponent where
  name : String
  summary : Option String
  description : Option String
  location : Option String
  dtstart : Option DtValue
  dtend : Option DtValue
deriving DecidableEq, Repr

/-- A parsed course record, the dict appended at `main.py:174`. -/
structure Course where
  summary : Option String
  description : Option String
  location : Option String
  start_time : PyDateTime
  end_time : PyDateTime
deriving DecidableEq, Repr

/-- Python exceptions the modelled code can raise. -/
inductive PyError where
  /-- `.dt` accessed on the `None` returned by `component.get` for an absent
  `DTSTART`/`DTEND` (`main.py:156-157`). -/
  | attributeError
  /-- `date.replace(tzinfo=...)`: `date.replace` accepts no `tzinfo`
  argument (`main.py:165/172` on an all-day value). -/
  | typeError
  /-- `open()` failed on an existing file (`main.py:149`). -/
  | osError
  /-- `Calendar.from_ical` rejected the file contents (`main.py:150`). -/
  | valueError
deriving DecidableEq, Repr

/-- Timezone normalization of one start/end value (`main.py:159-172`).
A `datetime` has a `tzinfo` attribute: when it is set, `astimezone(UTC+8)`
keeps the absolute instant and re-expresses the wall clock in UTC+8; when it
is `None`, `replace(tzinfo=UTC+8)` keeps the wall clock and attaches the
offset.  A date-only value has no `tzinfo` attribute, so `hasattr` is false
and the `replace(tzinfo=...)` branch raises `TypeError`. -/
def normalizeDt : DtValue → Except PyError PyDateTime
  | DtValue.dt d =>
    match d.tz with
    | some off => Except.ok { wall := d.wall - off + tzShanghai, tz := some tzShanghai }
    | none => Except.ok { wall := d.wall, tz := some tzShanghai }
  | DtValue.dateOnly _ => Except.error PyError.typeError

/-- Processing of one `VEVENT` component (`main.py:153-180`): read the
fields, raise `AttributeError` if `dtstart`/`dtend` is absent, normalize
both instants, and build the course dict. -/
def parseEvent (c : VComponent) : Except PyError Course :=
  match c.dtstart with
  | none => Except.error PyError.attributeError
  | some vs =>
    match c.dtend with
    | none => Except.error PyError.attributeError
    | some ve =>
      match normalizeDt vs with
      | Except.error er => Except.error er
      | Except.ok s =>
        match normalizeDt ve with
        | Except.error er => Except.error er
        | Except.ok t =>
          Except.ok { summary := c.summary, description := c.description,
                      location := c.location, start_time := s, end_time := t }

/-- `_parse_ics_file` (`main.py:146-181`) over the walked component list:
process every `VEVENT` in walk order, appending its record; any exception
raised while processing one event propagates and aborts the whole parse. -/
def parseIcs : List VComponent → Except PyError (List Course)
  | [] => Except.ok []
  | c :: rest =>
    if c.name = "VEVENT" then
      match parseEvent c with
      | Except.error er => Except.error er
      | Except.ok k =>
        match parseIcs rest with
        | Except.error er => Except.error er
        | Except.ok ks => Except.ok (k :: ks)
    else parseIcs rest

/-- `start_time <= now < end_time` (`main.py:258`), aware-datetime
comparison by instant. -/
def ongoingB (now : PyDateTime) (c : Course) : Bool :=
  decide (c.start_time.instant ≤ now.instant) && decide (now.instant < c.end_time.instant)

/-- `start_time > now` (`main.py:263`). -/
def futureB (now : PyDateTime) (c : Course) : Bool :=
  decide (now.instant < c.start_time.instant)

/-- Same-day restriction (`main.py:250`): keep courses whose start date
equals `now`'s civil date. -/
def sameDayCourses (courses : List Course) (now : PyDateTime) : List Course :=
  courses.filter (fun c => c.start_time.date == now.date)

/-- One iteration of the `user_next_course` update (`main.py:263-265`):
a strictly future course replaces the tracked next course when none is
tracked yet or when it starts strictly earlier. -/
def nextUpdate (now : PyDateTime) (nxt : Option Course) (c : Course) : Option Course :=
  if futureB now c then
    match nxt with
    | none => some c
    | some n =>
      if decide (c.start_time.instant < n.start_time.instant) then some c else some n
  else nxt

/-- The scan loop of `show_group_schedule` (`main.py:252-265`): walk the
same-day courses in feed order; the first ongoing course breaks the loop
(returned in the first slot, with the next-course tracker frozen as it
stood); otherwise the tracker is folded over the whole list. -/
def scanCourses (now : PyDateTime) : List Course → Option Course → Option Course × Option Course
  | [], nxt => (none, nxt)
  | c :: rest, nxt =>
    if ongoingB now c then (some c, nxt)
    else scanCourses now rest (nextUpdate now nxt c)

/-- The spec's `ResolvedStatus`: ongoing course with remaining minutes,
upcoming course with wait minutes, or nothing today. -/
inductive ResolvedStatus where
  | ongoing (e : Course) (remaining : Int)
  | upcoming (e : Course) (wait : Int)
  | noCourse
deriving DecidableEq, Repr

/-- The per-user status resolution of `show_group_schedule`
(`main.py:249-268`) together with the durations `end - now` / `start - now`
the rendered status reports: the ongoing course wins, else the tracked
next course, else nothing. -/
def statusAt (courses : List Course) (now : PyDateTime) : ResolvedStatus :=
  match scanCourses now (sameDayCourses courses now) none with
  | (some c, _) => ResolvedStatus.ongoing c (c.end_time.instant - now.instant)
  | (none, some c) => ResolvedStatus.upcoming c (c.start_time.instant - now.instant)
  | (none, none) => ResolvedStatus.noCourse

/-- `display_course = user_current_course if user_current_course else
user_next_course` (`main.py:268`). -/
def displayCourse (courses : List Course) (now : PyDateTime) : Option Course :=
  match scanCourses now (sameDayCourses courses now) none with
  | (some c, _) => some c
  | (none, nxt) => nxt

/-- The filter of `show_today_schedule` (`main.py:203-211`): same civil date
as `now` and strictly future start. -/
def todayRemaining (courses : List Course) (now : PyDateTime) : List Course :=
  courses.filter (fun c => c.start_time.date == now.date &&
    decide (now.instant < c.start_time.instant))

/-- Stable insertion of `a` into `l` by an integer key: `a` goes before the
first element whose key is not smaller. -/
def insertByKey (key : α → Int) (a : α) : List α → List α
  | [] => [a]
  | b :: l => if key a ≤ key b then a :: b :: l else b :: insertByKey key a l

/-- Stable ascending sort by an integer key: the embedding of Python
`list.sort(key=...)` (Timsort is stable; any two stable ascending sorts of
the same list agree). -/
def sortByKey (key : α → Int) : List α → List α
  | [] => []
  | b :: l => insertByKey key b (sortByKey key l)

/-- The single-user today view (`main.py:203-218`): filtered then sorted by
start time. -/
def todayView (courses : List Course) (now : PyDateTime) : List Course :=
  sortByKey (fun c => c.start_time.instant) (todayRemaining courses now)

/-- The state of one binding's backing `.ics` file on disk. -/
inductive FeedFile where
  /-- `os.path.exists` is false (`main.py:242`). -/
  | missing
  /-- the file exists but `open()` raises (`main.py:149`). -/
  | unreadable
  /-- the file reads but `Calendar.from_ical` raises (`main.py:150`). -/
  | malformed
  /-- the file parses as calendar data into these walked components. -/
  | content (components : List VComponent)
deriving DecidableEq, Repr

/-- One entry of the group roster iteration (`main.py:240`), bundled with
the state of its feed file. -/
structure GroupEntry where
  user_id : String
  nickname : String
  feed : FeedFile
deriving DecidableEq, Repr

/-- The per-user dict appended to `next_courses` (`main.py:272-280`). -/
structure DisplayRecord where
  summary : Option String
  description : Option String
  location : Option String
  start_time : PyDateTime
  end_time : PyDateTime
  user_id : String
  nickname : String
deriving DecidableEq, Repr

/-- The loop body of `show_group_schedule` for one binding
(`main.py:240-281`): a missing file is skipped (`continue`); an unreadable
or unparseable file raises, aborting the whole query; otherwise the display
course (if any) is wrapped into a record. -/
def resolveEntry (now : PyDateTime) (e : GroupEntry) : Except PyError (Option DisplayRecord) :=
  match e.feed with
  | FeedFile.missing => Except.ok none
  | FeedFile.unreadable => Except.error PyError.osError
  | FeedFile.malformed => Except.error PyError.valueError
  | FeedFile.content comps =>
    match parseIcs comps with
    | Except.error er => Except.error er
    | Except.ok courses =>
      match displayCourse courses now with
      | none => Except.ok none
      | some c =>
        Except.ok (some { summary := c.summary, description := c.description,
                          location := c.location, start_time := c.start_time,
                          end_time := c.end_time, user_id := e.user_id,
                          nickname := e.nickname })

/-- The roster loop of `show_group_schedule` (`main.py:240-281`): collect
the records of all bindings in iteration order; the first raised exception
aborts the whole aggregation. -/
def resolveGroupRecords (entries : List GroupEntry) (now : PyDateTime) :
    Except PyError (List DisplayRecord) :=
  match entries with
  | [] => Except.ok []
  | e :: rest =>
    match resolveEntry now e with
    | Except.error er => Except.error er
    | Except.ok r =>
      match resolveGroupRecords rest now with
      | Except.error er => Except.error er
      | Except.ok rs =>
        match r with
        | none => Except.ok rs
        | some d => Except.ok (d :: rs)

/-- Result of the group query: the plain "nobody has class" message, or the
rendered list of records. -/
inductive GroupReply where
  | emptyMessage
  | schedule (records : List DisplayRecord)
deriving DecidableEq, Repr

/-- `show_group_schedule` tail (`main.py:283-299`): empty record list yields
the plain message; otherwise the records are stably sorted ascending by
start time and rendered. -/
def showGroupSchedule (entries : List GroupEntry) (now : PyDateTime) :
    Except PyError GroupReply :=
  match resolveGroupRecords entries now with
  | Except.error er => Except.error er
  | Except.ok [] => Except.ok GroupReply.emptyMessage
  | Except.ok rs =>
    Except.ok (GroupReply.schedule (sortByKey (fun r => r.start_time.instant) rs))

/-- A start/end property value that is a date-only (all-day) value. -/
def hasDateOnlyB : Option DtValue → Bool
  | some (DtValue.dateOnly _) => true
  | _ => false

/-- An event whose normalized start instant strictly precedes its normalized
end instant (vacuously true when a field is absent or fails to
normalize). -/
def orderedEventB (c : VComponent) : Bool :=
  match c.dtstart, c.dtend with
  | some vs, some ve =>
    match normalizeDt vs, normalizeDt ve with
    | Except.ok s, Except.ok t => decide (s.instant < t.instant)
    | _, _ => true
  | _, _ => true

/-- Specification of the timezone normalization of one parsed field `t` from
its source value: a timezone-bearing source instant is converted to UTC+8
keeping the absolute instant; a naive one gets UTC+8 attached with the wall
clock unchanged. -/
def NormalizedField (v : Option DtValue) (t : PyDateTime) : Prop :=
  ∀ d : PyDateTime, v = some (DtValue.dt d) →
    ((∀ off : Int, d.tz = some off → t.tz = some tzShanghai ∧ t.instant = d.instant) ∧
      (d.tz = none → t = { wall := d.wall, tz := some tzShanghai }))

/-- A display record whose event is ongoing or strictly upcoming at `now`
(so its status is dated, not `None`). -/
def DatedStatus (now : PyDateTime) (r : DisplayRecord) : Prop :=
  r.start_time.date = now.date ∧
    ((r.start_time.instant ≤ now.instant ∧ now.instant < r.end_time.instant) ∨
      now.instant < r.start_time.instant)

/-- The record one roster entry contributes to the group view when the
aggregation succeeds: present exactly when the feed parses and the entry's
display course exists. -/
def recordOf (now : PyDateTime) (e : GroupEntry) : Option DisplayRecord :=
  match e.feed with
  | FeedFile.content comps =>
    match parseIcs comps with
    | Except.ok courses =>
      match displayCourse courses now with
      | some c =>
        some { summary := c.summary, description := c.description,
               location := c.location, start_time := c.start_time,
               end_time := c.end_time, user_id := e.user_id, nickname := e.nickname }
      | none => none
    | Except.error _ => none
  | _ => none

/-! Concrete data used to instantiate the theorems below.  All wall clocks
are minutes from an arbitrary epoch midnight, so day 0 spans walls
0..1439. -/

/-- A 9:00-10:00 course today (walls 540-600, UTC+8). -/
def demoMath : Course :=
  { summary := some "Math", description := none, location := none,
    start_time := { wall := 540, tz := some 480 },
    end_time := { wall := 600, tz := some 480 } }

/-- A 10:15-11:15 course today (walls 615-675, UTC+8). -/
def demoPhysics : Course :=
  { summary := some "Physics", description := none, location := none,
    start_time := { wall := 615, tz := some 480 },
    end_time := { wall := 675, tz := some 480 } }

/-- 9:30 today, UTC+8. -/
def demoNow930 : PyDateTime := { wall := 570, tz := some 480 }

/-- 9:45 today, UTC+8. -/
def demoNow945 : PyDateTime := { wall := 585, tz := some 480 }

/-- A 9:30-11:00 course today: overlaps `demoOverlapB` but starts later. -/
def demoOverlapA : Course :=
  { summary := some "A", description := none, location := none,
    start_time := { wall := 570, tz := some 480 },
    end_time := { wall := 660, tz := some 480 } }

/-- A 9:00-10:00 course today: starts before `demoOverlapA`. -/
def demoOverlapB : Course :=
  { summary := some "B", description := none, location := none,
    start_time := { wall := 540, tz := some 480 },
    end_time := { wall := 600, tz := some 480 } }

/-- An event carrying a UTC offset (offset 0): walls 120-180 UTC, i.e.
600-660 in UTC+8. -/
def demoCompUTC : VComponent :=
  { name := "VEVENT", summary := some "Chem", description := none, location := none,
    dtstart := some (DtValue.dt { wall := 120, tz := some 0 }),
    dtend := some (DtValue.dt { wall := 180, tz := some 0 }) }

/-- A naive 9:00-10:00 event (no timezone). -/
def demoCompNaive : VComponent :=
  { name := "VEVENT", summary := some "Alg", description := none, location := none,
    dtstart := some (DtValue.dt { wall := 540, tz := none }),
    dtend := some (DtValue.dt { wall := 600, tz := none }) }

/-- Parse of `demoCompUTC`: converted to UTC+8, same absolute instant. -/
def demoCourseUTC : Course :=
  { summary := some "Chem", description := none, location := none,
    start_time := { wall := 600, tz := some 480 },
    end_time := { wall := 660, tz := some 480 } }

/-- Parse of `demoCompNaive`: UTC+8 attached, wall clock unchanged. -/
def demoCourseNaive : Course :=
  { summary := some "Alg", description := none, location := none,
    start_time := { wall := 540, tz := some 480 },
    end_time := { wall := 600, tz := some 480 } }

/-- An event entry with no `DTEND`. -/
def demoCompNoEnd : VComponent :=
  { name := "VEVENT", summary := some "Bad", description := none, location := none,
    dtstart := some (DtValue.dt { wall := 700, tz := none }), dtend := none }

/-- An event whose end precedes its start. -/
def demoCompReversed : VComponent :=
  { name := "VEVENT", summary := some "Rev", description := none, location := none,
    dtstart := some (DtValue.dt { wall := 600, tz := none }),
    dtend := some (DtValue.dt { wall := 540, tz := none }) }

/-- Parse of `demoCompReversed`: the record violates `start < end`. -/
def demoCourseReversed : Course :=
  { summary := some "Rev", description := none, location := none,
    start_time := { wall := 600, tz := some 480 },
    end_time := { wall := 540, tz := some 480 } }

/-- An all-day event entry (date-only start and end). -/
def demoCompAllDay : VComponent :=
  { name := "VEVENT", summary := some "Trip", description := none, location := none,
    dtstart := some (DtValue.dateOnly 3), dtend := some (DtValue.dateOnly 4) }

/-- A naive 9:00-10:00 event on day 1 (tomorrow relative to the demo
instants). -/
def demoCompTomorrow : VComponent :=
  { name := "VEVENT", summary := some "Geo", description := none, location := none,
    dtstart := some (DtValue.dt { wall := 1980, tz := none }),
    dtend := some (DtValue.dt { wall := 2040, tz := none }) }

/-- Parse of `demoCompTomorrow`. -/
def demoCourseTomorrow : Course :=
  { summary := some "Geo", description := none, location := none,
    start_time := { wall := 1980, tz := some 480 },
    end_time := { wall := 2040, tz := some 480 } }

/-- A bound user whose feed parses but whose only course is tomorrow, so
the resolved status at the demo instants is `None`. -/
def demoEntryIdle : GroupEntry :=
  { user_id := "42", nickname := "bob", feed := FeedFile.content [demoCompTomorrow] }

/-- A bound user whose feed file exists but cannot be opened. -/
def demoEntryUnreadable : GroupEntry :=
  { user_id := "7", nickname := "carl", feed := FeedFile.unreadable }

/-- A bound user whose feed file does not exist. -/
def demoEntryMissing : GroupEntry :=
  { user_id := "8", nickname := "dana", feed := FeedFile.missing }

/-- A naive 10:00-11:00 event. -/
def demoCompLate : VComponent :=
  { name := "VEVENT", summary := some "Lit", description := none, location := none,
    dtstart := some (DtValue.dt { wall := 600, tz := none }),
    dtend := some (DtValue.dt { wall := 660, tz := none }) }

/-- Bound user with only the 10:00-11:00 course: upcoming at 9:30. -/
def demoEntryUp : GroupEntry :=
  { user_id := "1", nickname := "ann", feed := FeedFile.content [demoCompLate] }

/-- Bound user with only the 9:00-10:00 course: ongoing at 9:30. -/
def demoEntryOn : GroupEntry :=
  { user_id := "2", nickname := "ben", feed := FeedFile.content [demoCompNaive] }

/-- Display record of `demoEntryUp` at 9:30. -/
def demoRecUp : DisplayRecord :=
  { summary := some "Lit", description := none, location := none,
    start_time := { wall := 600, tz := some 480 },
    end_time := { wall := 660, tz := some 480 },
    user_id := "1", nickname := "ann" }

/-- Display record of `demoEntryOn` at 9:30. -/
def demoRecOn : DisplayRecord :=
  { summary := some "Alg", description := none, location := none,
    start_time := { wall := 540, tz := some 480 },
    end_time := { wall := 600, tz := some 480 },
    user_id := "2", nickname := "ben" }

/-! Basic characterizations of the Boolean tests and the same-day filter. -/

theorem ongoingB_iff (now : PyDateTime) (c : Course) :
    ongoingB now c = true ↔
      c.start_time.instant ≤ now.instant ∧ now.instant < c.end_time.instant := by
  simp [ongoingB]

theorem futureB_iff (now : PyDateTime) (c : Course) :
    futureB now c = true ↔ now.instant < c.start_time.instant := by
  simp [futureB]

theorem mem_sameDayCourses {courses : List Course} {now : PyDateTime} {c : Course} :
    c ∈ sameDayCourses courses now ↔ c ∈ courses ∧ c.start_time.date = now.date := by
  simp [sameDayCourses]

/-! Lemmas about one step of the next-course tracker. -/

theorem nextUpdate_eq_none_iff (now : PyDateTime) (nxt : Option Course) (c : Course) :
    nextUpdate now nxt c = none ↔ nxt = none ∧ futureB now c = false := by
  cases nxt with
  | none =>
    cases h : futureB now c <;> simp [nextUpdate, h]
  | some n =>
    cases h : futureB now c <;> simp [nextUpdate, h]
    split <;> simp

theorem nextUpdate_eq_some (now : PyDateTime) (nxt : Option Course) (c n : Course)
    (h : nextUpdate now nxt c = some n) :
    (n = c ∧ futureB now c = true) ∨ nxt = some n := by
  cases nxt with
  | none =>
    cases hf : futureB now c
    · simp [nextUpdate, hf] at h
    · simp [nextUpdate, hf] at h
      exact Or.inl ⟨by rw [h], rfl⟩
  | some m =>
    cases hf : futureB now c
    · simp [nextUpdate, hf] at h
      exact Or.inr (by rw [h])
    · by_cases hlt : c.start_time.instant < m.start_time.instant
      · simp [nextUpdate, hf, hlt] at h
        exact Or.inl ⟨by rw [h], rfl⟩
      · simp [nextUpdate, hf, hlt] at h
        exact Or.inr (by rw [h])

theorem nextUpdate_le_c (now : PyDateTime) (nxt : Option Course) (c n : Course)
    (hf : futureB now c = true) (h : nextUpdate now nxt c = some n) :
    n.start_time.instant ≤ c.start_time.instant := by
  cases nxt with
  | none =>
    simp [nextUpdate, hf] at h
    subst h
    exact le_refl _
  | some m =>
    by_cases hlt : c.start_time.instant < m.start_time.instant
    · simp [nextUpdate, hf, hlt] at h
      subst h
      exact le_refl _
    · simp [nextUpdate, hf, hlt] at h
      subst h
      omega

theorem nextUpdate_le_acc (now : PyDateTime) (nxt : Option Course) (c n a : Course)
    (h : nextUpdate now nxt c = some n) (ha : nxt = some a) :
    n.start_time.instant ≤ a.start_time.instant := by
  subst ha
  cases hf : futureB now c
  · simp [nextUpdate, hf] at h
    subst h
    exact le_refl _
  · by_cases hlt : c.start_time.instant < a.start_time.instant
    · simp [nextUpdate, hf, hlt] at h
      subst h
      omega
    · simp [nextUpdate, hf, hlt] at h
      subst h
      exact le_refl _

theorem nextUpdate_isSome_of_acc (now : PyDateTime) (nxt : Option Course) (c a : Course)
    (ha : nxt = some a) : ∃ m, nextUpdate now nxt c = some m := by
  subst ha
  cases hf : futureB now c <;> simp [nextUpdate, hf]
  split <;> simp

theorem nextUpdate_isSome_of_future (now : PyDateTime) (nxt : Option Course) (c : Course)
    (hf : futureB now c = true) : ∃ m, nextUpdate now nxt c = some m := by
  cases nxt <;> simp [nextUpdate, hf]
  split <;> simp

theorem nextUpdate_future (now : PyDateTime) (nxt : Option Course) (c n : Course)
    (hacc : ∀ a, nxt = some a → futureB now a = true)
    (h : nextUpdate now nxt c = some n) : futureB now n = true := by
  rcases nextUpdate_eq_some now nxt c n h with ⟨he, hf⟩ | ha
  · rw [he]; exact hf
  · exact hacc n ha

/-! Lemmas about the scan loop. -/

theorem scanCourses_fst (now : PyDateTime) (l : List Course) :
    ∀ acc, (scanCourses now l acc).1 = l.find? (ongoingB now) := by
  induction l with
  | nil => intro acc; simp [scanCourses]
  | cons c rest ih =>
    intro acc
    cases h : ongoingB now c with
    | true => simp [scanCourses, h, List.find?_cons_of_pos]
    | false =>
      rw [List.find?_cons_of_neg _ (by simp [h])]
      simp [scanCourses, h, ih]

theorem scanCourses_snd_none_iff (now : PyDateTime) (l : List Course) :
    ∀ acc, (∀ c ∈ l, ongoingB now c = false) →
      ((scanCourses now l acc).2 = none ↔
        acc = none ∧ ∀ c ∈ l, futureB now c = false) := by
  induction l with
  | nil => intro acc h; simp [scanCourses]
  | cons c rest ih =>
    intro acc h
    have hc : ongoingB now c = false := h c (List.mem_cons_self c rest)
    have hrest : ∀ x ∈ rest, ongoingB now x = false :=
      fun x hx => h x (List.mem_cons_of_mem c hx)
    rw [show scanCourses now (c :: rest) acc =
          scanCourses now rest (nextUpdate now acc c) by simp [scanCourses, hc]]
    rw [ih (nextUpdate now acc c) hrest, nextUpdate_eq_none_iff]
    simp only [List.forall_mem_cons]
    tauto

theorem scanCourses_snd_some (now : PyDateTime) (l : List Course) :
    ∀ acc n, (∀ c ∈ l, ongoingB now c = false) →
      (scanCourses now l acc).2 = some n →
      (n ∈ l ∧ futureB now n = true) ∨ acc = some n := by
  induction l with
  | nil => intro acc n _ h; simp [scanCourses] at h; exact Or.inr (by rw [h])
  | cons c rest ih =>
    intro acc n h hs
    have hc : ongoingB now c = false := h c (List.mem_cons_self c rest)
    have hrest : ∀ x ∈ rest, ongoingB now x = false :=
      fun x hx => h x (List.mem_cons_of_mem c hx)
    rw [show scanCourses now (c :: rest) acc =
          scanCourses now rest (nextUpdate now acc c) by simp [scanCourses, hc]] at hs
    rcases ih (nextUpdate now acc c) n hrest hs with ⟨hm, hf⟩ | hacc
    · exact Or.inl ⟨List.mem_cons_of_mem c hm, hf⟩
    · rcases nextUpdate_eq_some now acc c n hacc with ⟨he, hf⟩ | ha
      · exact Or.inl ⟨by rw [he]; exact List.mem_cons_self c rest, by rw [he]; exact hf⟩
      · exact Or.inr ha

theorem scanCourses_snd_min (now : PyDateTime) (l : List Course) :
    ∀ acc n, (∀ c ∈ l, ongoingB now c = false) →
      (scanCourses now l acc).2 = some n →
      (∀ c ∈ l, futureB now c = true → n.start_time.instant ≤ c.start_time.instant) ∧
      (∀ a, acc = some a → n.start_time.instant ≤ a.start_time.instant) := by
  induction l with
  | nil =>
    intro acc n _ h
    simp [scanCourses] at h
    exact ⟨by simp, fun a ha => by rw [h] at ha; cases ha; exact le_refl _⟩
  | cons c rest ih =>
    intro acc n h hs
    have hc : ongoingB now c = false := h c (List.mem_cons_self c rest)
    have hrest : ∀ x ∈ rest, ongoingB now x = false :=
      fun x hx => h x (List.mem_cons_of_mem c hx)
    rw [show scanCourses now (c :: rest) acc =
          scanCourses now rest (nextUpdate now acc c) by simp [scanCourses, hc]] at hs
    obtain ⟨hmin, hacc⟩ := ih (nextUpdate now acc c) n hrest hs
    constructor
    · intro x hx hfx
      rcases List.mem_cons.mp hx with he | hm
      · subst he
        obtain ⟨m, hm⟩ := nextUpdate_isSome_of_future now acc x hfx
        exact le_trans (hacc m hm) (nextUpdate_le_c now acc x m hfx hm)
      · exact hmin x hm hfx
    · intro a ha
      obtain ⟨m, hm⟩ := nextUpdate_isSome_of_acc now acc c a ha
      exact le_trans (hacc m hm) (nextUpdate_le_acc now acc c m a hm ha)

/-! Bridge lemmas: `statusAt` in terms of the first ongoing course and the
tracked next course. -/

theorem statusAt_ongoing_elim {courses : List Course} {now : PyDateTime} {e : Course} {r : Int}
    (h : statusAt courses now = ResolvedStatus.ongoing e r) :
    (sameDayCourses courses now).find? (ongoingB now) = some e ∧
      r = e.end_time.instant - now.instant := by
  unfold statusAt at h
  cases hp : scanCourses now (sameDayCourses courses now) none with
  | mk p1 p2 =>
    rw [hp] at h
    have h1 : p1 = (sameDayCourses courses now).find? (ongoingB now) := by
      rw [← scanCourses_fst now _ none, hp]
    cases p1 with
    | some c =>
      simp only [ResolvedStatus.ongoing.injEq] at h
      obtain ⟨h2, h3⟩ := h
      subst h2
      exact ⟨h1.symm, h3.symm⟩
    | none =>
      cases p2 <;> simp at h

theorem statusAt_of_find_some {courses : List Course} {now : PyDateTime} {e : Course}
    (h : (sameDayCourses courses now).find? (ongoingB now) = some e) :
    statusAt courses now = ResolvedStatus.ongoing e (e.end_time.instant - now.instant) := by
  unfold statusAt
  cases hp : scanCourses now (sameDayCourses courses now) none with
  | mk p1 p2 =>
    have h1 : p1 = (sameDayCourses courses now).find? (ongoingB now) := by
      rw [← scanCourses_fst now _ none, hp]
    rw [h] at h1
    subst h1
    rfl

theorem statusAt_upcoming_elim {courses : List Course} {now : PyDateTime} {e : Course} {w : Int}
    (h : statusAt courses now = ResolvedStatus.upcoming e w) :
    (sameDayCourses courses now).find? (ongoingB now) = none ∧
      (scanCourses now (sameDayCourses courses now) none).2 = some e ∧
      w = e.start_time.instant - now.instant := by
  unfold statusAt at h
  cases hp : scanCourses now (sameDayCourses courses now) none with
  | mk p1 p2 =>
    rw [hp] at h
    have h1 : p1 = (sameDayCourses courses now).find? (ongoingB now) := by
      rw [← scanCourses_fst now _ none, hp]
    cases p1 with
    | some c => simp at h
    | none =>
      cases p2 with
      | some c =>
        simp only [ResolvedStatus.upcoming.injEq] at h
        obtain ⟨h2, h3⟩ := h
        subst h2
        exact ⟨h1.symm, rfl, h3.symm⟩
      | none => simp at h

theorem statusAt_of_next {courses : List Course} {now : PyDateTime} {e : Course}
    (hf : (sameDayCourses courses now).find? (ongoingB now) = none)
    (hn : (scanCourses now (sameDayCourses courses now) none).2 = some e) :
    statusAt courses now = ResolvedStatus.upcoming e (e.start_time.instant - now.instant) := by
  unfold statusAt
  cases hp : scanCourses now (sameDayCourses courses now) none with
  | mk p1 p2 =>
    have h1 : p1 = (sameDayCourses courses now).find? (ongoingB now) := by
      rw [← scanCourses_fst now _ none, hp]
    rw [hf] at h1
    subst h1
    rw [hp] at hn
    simp only at hn
    subst hn
    rfl

theorem statusAt_noCourse_iff {courses : List Course} {now : PyDateTime} :
    statusAt courses now = ResolvedStatus.noCourse ↔
      (sameDayCourses courses now).find? (ongoingB now) = none ∧
      (scanCourses now (sameDayCourses courses now) none).2 = none := by
  unfold statusAt
  cases hp : scanCourses now (sameDayCourses courses now) none with
  | mk p1 p2 =>
    have h1 : p1 = (sameDayCourses courses now).find? (ongoingB now) := by
      rw [← scanCourses_fst now _ none, hp]
    cases p1 with
    | some c =>
      simp only []
      constructor
      · intro h; simp at h
      · intro h; rw [← h1] at h; simp at h
    | none =>
      cases p2 with
      | some c =>
        simp only []
        constructor
        · intro h; simp at h
        · intro h; simp at h
      | none =>
        simp [← h1]

/-- C1: for every list of parsed course events and every instant `now`, the
current/next status resolution considers only events whose start date equals
`now`'s civil (UTC+8) date, and returns `Ongoing(e, remaining = end - now)`
for an event `e` with `start ≤ now < end` when one exists; otherwise
`Upcoming(e, wait = start - now)` for a minimum-start same-day event with
`start > now` when one exists; otherwise nothing. -/
theorem statusAt_correct (courses : List Course) (now : PyDateTime) :
    (∀ e r, statusAt courses now = ResolvedStatus.ongoing e r →
      e ∈ courses ∧ e.start_time.date = now.date ∧
      e.start_time.instant ≤ now.instant ∧ now.instant < e.end_time.instant ∧
      r = e.end_time.instant - now.instant) ∧
    ((∃ e, e ∈ courses ∧ e.start_time.date = now.date ∧
        e.start_time.instant ≤ now.instant ∧ now.instant < e.end_time.instant) →
      ∃ e r, statusAt courses now = ResolvedStatus.ongoing e r) ∧
    (∀ e w, statusAt courses now = ResolvedStatus.upcoming e w →
      e ∈ courses ∧ e.start_time.date = now.date ∧ now.instant < e.start_time.instant ∧
      w = e.start_time.instant - now.instant ∧
      ∀ c, c ∈ courses → c.start_time.date = now.date → now.instant < c.start_time.instant →
        e.start_time.instant ≤ c.start_time.instant) ∧
    ((∀ e, e ∈ courses → e.start_time.date = now.date →
        ¬(e.start_time.instant ≤ now.instant ∧ now.instant < e.end_time.instant)) →
      (∃ e, e ∈ courses ∧ e.start_time.date = now.date ∧ now.instant < e.start_time.instant) →
      ∃ e w, statusAt courses now = ResolvedStatus.upcoming e w) ∧
    (statusAt courses now = ResolvedStatus.noCourse ↔
      ∀ e, e ∈ courses → e.start_time.date = now.date →
        ¬(e.start_time.instant ≤ now.instant ∧ now.instant < e.end_time.instant) ∧
        ¬(now.instant < e.start_time.instant)) := by
  refine ⟨?_, ?_, ?_, ?_, ?_⟩
  · intro e r h
    obtain ⟨hf, hr⟩ := statusAt_ongoing_elim h
    obtain ⟨hec, hed⟩ := mem_sameDayCourses.mp (List.mem_of_find?_eq_some hf)
    obtain ⟨h1, h2⟩ := (ongoingB_iff now e).mp (List.find?_some hf)
    exact ⟨hec, hed, h1, h2, hr⟩
  · rintro ⟨e, hec, hed, h1, h2⟩
    have hne : (sameDayCourses courses now).find? (ongoingB now) ≠ none := by
      intro hn
      exact List.find?_eq_none.mp hn e (mem_sameDayCourses.mpr ⟨hec, hed⟩)
        ((ongoingB_iff now e).mpr ⟨h1, h2⟩)
    obtain ⟨a, ha⟩ := Option.ne_none_iff_exists'.mp hne
    exact ⟨a, a.end_time.instant - now.instant, statusAt_of_find_some ha⟩
  · intro e w h
    obtain ⟨hfnone, hsnd, hw⟩ := statusAt_upcoming_elim h
    have hno : ∀ x ∈ sameDayCourses courses now, ongoingB now x = false := by
      intro x hx
      exact Bool.eq_false_iff.mpr (List.find?_eq_none.mp hfnone x hx)
    rcases scanCourses_snd_some now (sameDayCourses courses now) none e hno hsnd with
      ⟨hm, hfut⟩ | habs
    · obtain ⟨hec, hed⟩ := mem_sameDayCourses.mp hm
      obtain ⟨hmin, _⟩ := scanCourses_snd_min now (sameDayCourses courses now) none e hno hsnd
      refine ⟨hec, hed, (futureB_iff now e).mp hfut, hw, ?_⟩
      intro c hc hd hcf
      exact hmin c (mem_sameDayCourses.mpr ⟨hc, hd⟩) ((futureB_iff now c).mpr hcf)
    · simp at habs
  · intro hno hex
    have hfnone : (sameDayCourses courses now).find? (ongoingB now) = none := by
      refine List.find?_eq_none.mpr ?_
      intro x hx hp
      obtain ⟨hxc, hxd⟩ := mem_sameDayCourses.mp hx
      exact hno x hxc hxd ((ongoingB_iff now x).mp hp)
    have hnoB : ∀ x ∈ sameDayCourses courses now, ongoingB now x = false := by
      intro x hx
      exact Bool.eq_false_iff.mpr (List.find?_eq_none.mp hfnone x hx)
    obtain ⟨e, hec, hed, hfut⟩ := hex
    have hsne : (scanCourses now (sameDayCourses courses now) none).2 ≠ none := by
      intro hn
      rw [scanCourses_snd_none_iff now (sameDayCourses courses now) none hnoB] at hn
      obtain ⟨_, hall⟩ := hn
      have h2 := hall e (mem_sameDayCourses.mpr ⟨hec, hed⟩)
      have h3 := (futureB_iff now e).mpr hfut
      rw [h2] at h3
      exact Bool.false_ne_true h3
    obtain ⟨a, ha⟩ := Option.ne_none_iff_exists'.mp hsne
    exact ⟨a, a.start_time.instant - now.instant, statusAt_of_next hfnone ha⟩
  · rw [statusAt_noCourse_iff]
    constructor
    · rintro ⟨hfnone, hsnone⟩ e hec hed
      have hnoB : ∀ x ∈ sameDayCourses courses now, ongoingB now x = false := by
        intro x hx
        exact Bool.eq_false_iff.mpr (List.find?_eq_none.mp hfnone x hx)
      rw [scanCourses_snd_none_iff now (sameDayCourses courses now) none hnoB] at hsnone
      obtain ⟨_, hallf⟩ := hsnone
      have hmem : e ∈ sameDayCourses courses now := mem_sameDayCourses.mpr ⟨hec, hed⟩
      constructor
      · intro hc
        have := List.find?_eq_none.mp hfnone e hmem
        exact this ((ongoingB_iff now e).mpr hc)
      · intro hc
        have h3 := (futureB_iff now e).mpr hc
        rw [hallf e hmem] at h3
        exact Bool.false_ne_true h3
    · intro hall
      have hfnone : (sameDayCourses courses now).find? (ongoingB now) = none := by
        refine List.find?_eq_none.mpr ?_
        intro x hx hp
        obtain ⟨hxc, hxd⟩ := mem_sameDayCourses.mp hx
        exact (hall x hxc hxd).1 ((ongoingB_iff now x).mp hp)
      have hnoB : ∀ x ∈ sameDayCourses courses now, ongoingB now x = false := by
        intro x hx
        exact Bool.eq_false_iff.mpr (List.find?_eq_none.mp hfnone x hx)
      refine ⟨hfnone, ?_⟩
      rw [scanCourses_snd_none_iff now (sameDayCourses courses now) none hnoB]
      refine ⟨rfl, ?_⟩
      intro x hx
      obtain ⟨hxc, hxd⟩ := mem_sameDayCourses.mp hx
      exact Bool.eq_false_iff.mpr (fun ht => (hall x hxc hxd).2 ((futureB_iff now x).mp ht))

/-- Witness for C1: at 9:30 with the 9:00-10:00 and 10:15-11:15 feed, the
ongoing branch of the characterization applies. -/
theorem statusAt_correct_witness :
    ∃ e r, statusAt [demoMath, demoPhysics] demoNow930 = ResolvedStatus.ongoing e r :=
  (statusAt_correct [demoMath, demoPhysics] demoNow930).2.1 ⟨demoMath, by decide⟩

/-- C2: with two or more overlapping same-day events both containing `now`,
the status resolution reports the first match of the scan in feed order —
whichever qualifying event appears first in the input sequence, regardless
of start order. -/
theorem statusAt_first_match (courses : List Course) (now : PyDateTime) (e : Course)
    (h : (sameDayCourses courses now).find? (ongoingB now) = some e) :
    statusAt courses now = ResolvedStatus.ongoing e (e.end_time.instant - now.instant) :=
  statusAt_of_find_some h

/-- Witness for C2: at 9:45 both demo events are ongoing and the
later-starting one appears first in the feed; it is the one reported. -/
theorem statusAt_first_match_witness :
    statusAt [demoOverlapA, demoOverlapB] demoNow945 =
      ResolvedStatus.ongoing demoOverlapA 75 ∧
    demoOverlapB.start_time.instant < demoOverlapA.start_time.instant :=
  ⟨statusAt_first_match [demoOverlapA, demoOverlapB] demoNow945 demoOverlapA (by decide),
   by decide⟩

/-! Parser structure lemmas. -/

theorem normalizeDt_spec {v : DtValue} {t : PyDateTime} (h : normalizeDt v = Except.ok t) :
    NormalizedField (some v) t := by
  intro d hd
  injection hd with hv
  subst hv
  constructor
  · intro off hoff
    have hv2 : normalizeDt (DtValue.dt d) =
        Except.ok { wall := d.wall - off + tzShanghai, tz := some tzShanghai } := by
      simp [normalizeDt, hoff]
    rw [hv2] at h
    simp only [Except.ok.injEq] at h
    subst h
    refine ⟨rfl, ?_⟩
    simp only [PyDateTime.instant, hoff, Option.getD_some]
    omega
  · intro hnone
    have hv2 : normalizeDt (DtValue.dt d) =
        Except.ok { wall := d.wall, tz := some tzShanghai } := by
      simp [normalizeDt, hnone]
    rw [hv2] at h
    simp only [Except.ok.injEq] at h
    exact h.symm

theorem parseEvent_eq_ok {c : VComponent} {k : Course} (h : parseEvent c = Except.ok k) :
    ∃ vs ve, c.dtstart = some vs ∧ c.dtend = some ve ∧
      normalizeDt vs = Except.ok k.start_time ∧ normalizeDt ve = Except.ok k.end_time ∧
      k.summary = c.summary ∧ k.description = c.description ∧ k.location = c.location := by
  cases hs : c.dtstart with
  | none => simp [parseEvent, hs] at h
  | some vs =>
    cases he : c.dtend with
    | none => simp [parseEvent, hs, he] at h
    | some ve =>
      cases hns : normalizeDt vs with
      | error er => simp [parseEvent, hs, he, hns] at h
      | ok s =>
        cases hne : normalizeDt ve with
        | error er => simp [parseEvent, hs, he, hns, hne] at h
        | ok t =>
          have hval : parseEvent c = Except.ok
              { summary := c.summary, description := c.description,
                location := c.location, start_time := s, end_time := t } := by
            simp [parseEvent, hs, he, hns, hne]
          rw [hval] at h
          simp only [Except.ok.injEq] at h
          subst h
          exact ⟨vs, ve, rfl, rfl, hns, hne, rfl, rfl, rfl⟩

theorem parseIcs_ok_forall2 {comps : List VComponent} :
    ∀ {cs : List Course}, parseIcs comps = Except.ok cs →
      List.Forall₂ (fun c k => parseEvent c = Except.ok k)
        (comps.filter (fun c => c.name == "VEVENT")) cs := by
  induction comps with
  | nil =>
    intro cs h
    simp only [parseIcs, Except.ok.injEq] at h
    subst h
    exact List.Forall₂.nil
  | cons c rest ih =>
    intro cs h
    by_cases hn : c.name = "VEVENT"
    · simp only [parseIcs, if_pos hn] at h
      cases hpe : parseEvent c with
      | error er => rw [hpe] at h; simp at h
      | ok k =>
        rw [hpe] at h
        cases hpr : parseIcs rest with
        | error er => rw [hpr] at h; simp at h
        | ok ks =>
          rw [hpr] at h
          simp only [Except.ok.injEq] at h
          subst h
          rw [List.filter_cons_of_pos (by simp [hn])]
          exact List.Forall₂.cons hpe (ih hpr)
    · simp only [parseIcs, if_neg hn] at h
      rw [List.filter_cons_of_neg (by simp [hn])]
      exact ih h

/-- C3: every record of a successful parse has its start and end normalized
from the source values: a timezone-bearing instant is converted to the
fixed UTC+8 offset preserving the absolute instant, and a naive instant
gets UTC+8 attached with the wall-clock value unchanged. -/
theorem parse_normalization (comps : List VComponent) (cs : List Course)
    (h : parseIcs comps = Except.ok cs) :
    List.Forall₂ (fun c k => NormalizedField c.dtstart k.start_time ∧
        NormalizedField c.dtend k.end_time)
      (comps.filter (fun c => c.name == "VEVENT")) cs := by
  refine List.Forall₂.imp ?_ (parseIcs_ok_forall2 h)
  intro c k hck
  obtain ⟨vs, ve, hs, he, hns, hne, _, _, _⟩ := parseEvent_eq_ok hck
  constructor
  · rw [hs]; exact normalizeDt_spec hns
  · rw [he]; exact normalizeDt_spec hne

/-- Witness for C3: a feed with one offset-bearing event (offset 0) and one
naive event parses to the expected normalized records. -/
theorem parse_normalization_witness :
    List.Forall₂ (fun c k => NormalizedField c.dtstart k.start_time ∧
        NormalizedField c.dtend k.end_time)
      (List.filter (fun c => c.name == "VEVENT") [demoCompUTC, demoCompNaive])
      [demoCourseUTC, demoCourseNaive] :=
  parse_normalization [demoCompUTC, demoCompNaive] [demoCourseUTC, demoCourseNaive] (by rfl)

/-! Stable sort lemmas. -/

theorem insertByKey_perm (key : α → Int) (a : α) (l : List α) :
    List.Perm (insertByKey key a l) (a :: l) := by
  induction l with
  | nil => exact List.Perm.refl _
  | cons b t ih =>
    by_cases h : key a ≤ key b
    · simp [insertByKey, h]
    · rw [show insertByKey key a (b :: t) = b :: insertByKey key a t by
        simp [insertByKey, h]]
      exact (ih.cons b).trans (List.Perm.swap a b t)

theorem sortByKey_perm (key : α → Int) (l : List α) :
    List.Perm (sortByKey key l) l := by
  induction l with
  | nil => exact List.Perm.refl _
  | cons b t ih => exact (insertByKey_perm key b (sortByKey key t)).trans (ih.cons b)

theorem mem_sortByKey {key : α → Int} {l : List α} {a : α} :
    a ∈ sortByKey key l ↔ a ∈ l :=
  (sortByKey_perm key l).mem_iff

theorem insertByKey_pairwise (key : α → Int) (a : α) (l : List α)
    (hl : List.Pairwise (fun x y => key x ≤ key y) l) :
    List.Pairwise (fun x y => key x ≤ key y) (insertByKey key a l) := by
  induction l with
  | nil => simp [insertByKey]
  | cons b t ih =>
    obtain ⟨hb, ht⟩ := List.pairwise_cons.mp hl
    by_cases h : key a ≤ key b
    · rw [show insertByKey key a (b :: t) = a :: b :: t by simp [insertByKey, h]]
      refine List.pairwise_cons.mpr ⟨?_, hl⟩
      intro x hx
      rcases List.mem_cons.mp hx with he | hm
      · rw [he]; exact h
      · exact le_trans h (hb x hm)
    · rw [show insertByKey key a (b :: t) = b :: insertByKey key a t by
        simp [insertByKey, h]]
      refine List.pairwise_cons.mpr ⟨?_, ih ht⟩
      intro x hx
      have hx2 : x = a ∨ x ∈ t := by
        simpa using (insertByKey_perm key a t).mem_iff.mp hx
      rcases hx2 with he | hm
      · rw [he]; omega
      · exact hb x hm

theorem sortByKey_pairwise (key : α → Int) (l : List α) :
    List.Pairwise (fun x y => key x ≤ key y) (sortByKey key l) := by
  induction l with
  | nil => simp [sortByKey]
  | cons b t ih => exact insertByKey_pairwise key b (sortByKey key t) ih

theorem insertByKey_filter (key : α → Int) (a : α) (l : List α) (k : Int) :
    (insertByKey key a l).filter (fun x => key x == k) =
      if key a = k then a :: l.filter (fun x => key x == k)
      else l.filter (fun x => key x == k) := by
  induction l with
  | nil =>
    by_cases hk : key a = k
    · simp [insertByKey, List.filter, hk]
    · have hbk : (key a == k) = false := beq_eq_false_iff_ne.mpr hk
      simp [insertByKey, List.filter, hbk, hk]
  | cons b t ih =>
    by_cases h : key a ≤ key b
    · rw [show insertByKey key a (b :: t) = a :: b :: t by simp [insertByKey, h]]
      by_cases hk : key a = k <;> simp [List.filter_cons, hk]
    · rw [show insertByKey key a (b :: t) = b :: insertByKey key a t by
        simp [insertByKey, h]]
      by_cases hk : key a = k
      · have hbk : (key b == k) = false := by
          simp only [beq_eq_false_iff_ne]
          omega
        simp [List.filter_cons, hbk, ih, hk]
      · by_cases hbk : key b = k <;> simp [List.filter_cons, hbk, ih, hk]

theorem sortByKey_filter (key : α → Int) (l : List α) (k : Int) :
    (sortByKey key l).filter (fun x => key x == k) = l.filter (fun x => key x == k) := by
  induction l with
  | nil => rfl
  | cons b t ih =>
    by_cases hk : key b = k <;>
      simp [sortByKey, insertByKey_filter, ih, hk, List.filter_cons]

/-- C4: the single-user today view contains exactly the events on `now`'s
civil date whose start is strictly after `now`; started events (ongoing
included) and events of other dates never appear. -/
theorem todayView_mem (courses : List Course) (now : PyDateTime) (c : Course) :
    c ∈ todayView courses now ↔
      c ∈ courses ∧ c.start_time.date = now.date ∧ now.instant < c.start_time.instant := by
  unfold todayView
  rw [mem_sortByKey]
  unfold todayRemaining
  simp [List.mem_filter, and_assoc]

/-! Aggregation structure lemmas. -/

theorem resolveEntry_eq_recordOf {now : PyDateTime} {e : GroupEntry}
    {r : Option DisplayRecord} (h : resolveEntry now e = Except.ok r) :
    recordOf now e = r := by
  cases hf : e.feed with
  | missing =>
    simp [resolveEntry, hf] at h
    subst h
    simp [recordOf, hf]
  | unreadable => simp [resolveEntry, hf] at h
  | malformed => simp [resolveEntry, hf] at h
  | content comps =>
    cases hp : parseIcs comps with
    | error er => simp [resolveEntry, hf, hp] at h
    | ok courses =>
      cases hd : displayCourse courses now with
      | none =>
        simp [resolveEntry, hf, hp, hd] at h
        subst h
        simp [recordOf, hf, hp, hd]
      | some c =>
        simp [resolveEntry, hf, hp, hd] at h
        subst h
        simp [recordOf, hf, hp, hd]

theorem resolveGroupRecords_filterMap {entries : List GroupEntry} {now : PyDateTime} :
    ∀ {rs : List DisplayRecord}, resolveGroupRecords entries now = Except.ok rs →
      rs = entries.filterMap (recordOf now) := by
  induction entries with
  | nil =>
    intro rs h
    simp only [resolveGroupRecords, Except.ok.injEq] at h
    subst h
    rfl
  | cons e rest ih =>
    intro rs h
    cases hre : resolveEntry now e with
    | error er => simp [resolveGroupRecords, hre] at h
    | ok r =>
      cases hrr : resolveGroupRecords rest now with
      | error er => simp [resolveGroupRecords, hre, hrr] at h
      | ok rs2 =>
        have hrec := resolveEntry_eq_recordOf hre
        cases r with
        | none =>
          simp [resolveGroupRecords, hre, hrr] at h
          subst h
          simp [List.filterMap_cons, hrec]
          exact ih hrr
        | some d =>
          simp [resolveGroupRecords, hre, hrr] at h
          subst h
          simp [List.filterMap_cons, hrec]
          exact ih hrr

theorem displayCourse_none_iff (courses : List Course) (now : PyDateTime) :
    displayCourse courses now = none ↔
      statusAt courses now = ResolvedStatus.noCourse := by
  unfold displayCourse statusAt
  cases hp : scanCourses now (sameDayCourses courses now) none with
  | mk p1 p2 => cases p1 <;> cases p2 <;> simp

/-- C5 counterexample: `demoEntryIdle`'s feed is readable and parses, its
status at 9:30 resolves to `None`, yet the group aggregation emits no
record for that user — `None`-status users are dropped. -/
theorem group_drops_idle_user :
    parseIcs [demoCompTomorrow] = Except.ok [demoCourseTomorrow] ∧
    statusAt [demoCourseTomorrow] demoNow930 = ResolvedStatus.noCourse ∧
    resolveGroupRecords [demoEntryIdle] demoNow930 = Except.ok [] :=
  ⟨by rfl, by rfl, by rfl⟩

/-- C5 (amended): the group aggregation produces one display record for
exactly the bound users whose feed is present and parses AND whose display
course exists; a user whose resolved status is `None` contributes no
record. -/
theorem group_records_characterization (entries : List GroupEntry) (now : PyDateTime)
    (rs : List DisplayRecord) :
    (resolveGroupRecords entries now = Except.ok rs →
      rs = entries.filterMap (recordOf now)) ∧
    (∀ courses, displayCourse courses now = none ↔
      statusAt courses now = ResolvedStatus.noCourse) ∧
    (∀ e : GroupEntry, ∀ comps courses, e.feed = FeedFile.content comps →
      parseIcs comps = Except.ok courses →
      statusAt courses now = ResolvedStatus.noCourse → recordOf now e = none) := by
  refine ⟨fun h => resolveGroupRecords_filterMap h,
    fun courses => displayCourse_none_iff courses now, ?_⟩
  intro e comps courses hf hp hs
  have hd : displayCourse courses now = none := (displayCourse_none_iff courses now).mpr hs
  simp [recordOf, hf, hp, hd]

/-- Witness for C5 (amended): the idle user's roster produces the empty
record list, matching the per-entry record function. -/
theorem group_records_characterization_witness :
    ([] : List DisplayRecord) = List.filterMap (recordOf demoNow930) [demoEntryIdle] :=
  (group_records_characterization [demoEntryIdle] demoNow930 []).1 (by rfl)

theorem displayCourse_some_spec {courses : List Course} {now : PyDateTime} {c : Course}
    (h : displayCourse courses now = some c) :
    c ∈ courses ∧ c.start_time.date = now.date ∧
      ((c.start_time.instant ≤ now.instant ∧ now.instant < c.end_time.instant) ∨
        now.instant < c.start_time.instant) := by
  unfold displayCourse at h
  cases hp : scanCourses now (sameDayCourses courses now) none with
  | mk p1 p2 =>
    rw [hp] at h
    have h1 : p1 = (sameDayCourses courses now).find? (ongoingB now) := by
      rw [← scanCourses_fst now _ none, hp]
    cases p1 with
    | some a =>
      simp only [Option.some.injEq] at h
      subst h
      obtain ⟨hm, hd⟩ := mem_sameDayCourses.mp (List.mem_of_find?_eq_some h1.symm)
      exact ⟨hm, hd, Or.inl ((ongoingB_iff now _).mp (List.find?_some h1.symm))⟩
    | none =>
      simp only at h
      have hno : ∀ x ∈ sameDayCourses courses now, ongoingB now x = false := by
        intro x hx
        exact Bool.eq_false_iff.mpr (List.find?_eq_none.mp h1.symm x hx)
      have hsnd : (scanCourses now (sameDayCourses courses now) none).2 = some c := by
        rw [hp]; exact h
      rcases scanCourses_snd_some now (sameDayCourses courses now) none c hno hsnd with
        ⟨hm, hfut⟩ | habs
      · obtain ⟨hmc, hd⟩ := mem_sameDayCourses.mp hm
        exact ⟨hmc, hd, Or.inr ((futureB_iff now c).mp hfut)⟩
      · simp at habs

theorem resolveEntry_ok_some {now : PyDateTime} {e : GroupEntry} {d : DisplayRecord}
    (h : resolveEntry now e = Except.ok (some d)) :
    ∃ courses c, displayCourse courses now = some c ∧
      d.start_time = c.start_time ∧ d.end_time = c.end_time := by
  cases hf : e.feed with
  | missing => simp [resolveEntry, hf] at h
  | unreadable => simp [resolveEntry, hf] at h
  | malformed => simp [resolveEntry, hf] at h
  | content comps =>
    cases hp : parseIcs comps with
    | error er => simp [resolveEntry, hf, hp] at h
    | ok courses =>
      cases hd : displayCourse courses now with
      | none => simp [resolveEntry, hf, hp, hd] at h
      | some c =>
        simp [resolveEntry, hf, hp, hd] at h
        subst h
        exact ⟨courses, c, hd, rfl, rfl⟩

theorem resolveGroupRecords_dated {entries : List GroupEntry} {now : PyDateTime} :
    ∀ {rs : List DisplayRecord}, resolveGroupRecords entries now = Except.ok rs →
      ∀ r ∈ rs, DatedStatus now r := by
  induction entries with
  | nil =>
    intro rs h r hr
    simp only [resolveGroupRecords, Except.ok.injEq] at h
    subst h
    simp at hr
  | cons e rest ih =>
    intro rs h r hr
    cases hre : resolveEntry now e with
    | error er => simp [resolveGroupRecords, hre] at h
    | ok r0 =>
      cases hrr : resolveGroupRecords rest now with
      | error er => simp [resolveGroupRecords, hre, hrr] at h
      | ok rs2 =>
        cases r0 with
        | none =>
          simp [resolveGroupRecords, hre, hrr] at h
          subst h
          exact ih hrr r hr
        | some d =>
          simp [resolveGroupRecords, hre, hrr] at h
          subst h
          rcases List.mem_cons.mp hr with he | hm
          · subst he
            obtain ⟨courses, c, hd, h1, h2⟩ := resolveEntry_ok_some hre
            obtain ⟨_, hdate, hstat⟩ := displayCourse_some_spec hd
            refine ⟨?_, ?_⟩
            · rw [h1]; exact hdate
            · rw [h1, h2]; exact hstat
          · exact ih hrr r hm

/-- C6: a successful group reply lists its records sorted ascending by the
anchor (the displayed event's start instant); every record's status is
dated (ongoing or upcoming — `None`-status records never appear, so the
trailing-`None` clause holds vacuously); and the sort is stable: it is a
permutation of the aggregation order that preserves the relative order of
records with equal anchors. -/
theorem groupSchedule_sorted_stable (entries : List GroupEntry) (now : PyDateTime)
    (rs : List DisplayRecord)
    (h : showGroupSchedule entries now = Except.ok (GroupReply.schedule rs)) :
    List.Pairwise (fun a b => a.start_time.instant ≤ b.start_time.instant) rs ∧
    (∀ r ∈ rs, DatedStatus now r) ∧
    ∃ rs0, resolveGroupRecords entries now = Except.ok rs0 ∧ List.Perm rs rs0 ∧
      ∀ k : Int, rs.filter (fun r => r.start_time.instant == k) =
        rs0.filter (fun r => r.start_time.instant == k) := by
  unfold showGroupSchedule at h
  cases hrr : resolveGroupRecords entries now with
  | error er => rw [hrr] at h; simp at h
  | ok rs0 =>
    rw [hrr] at h
    cases rs0 with
    | nil => simp at h
    | cons d ds =>
      simp only [Except.ok.injEq, GroupReply.schedule.injEq] at h
      subst h
      refine ⟨sortByKey_pairwise _ _, ?_, d :: ds, rfl, sortByKey_perm _ _,
        fun k => sortByKey_filter _ _ k⟩
      intro r hr
      exact resolveGroupRecords_dated hrr r (mem_sortByKey.mp hr)

/-- Witness for C6: the two-user roster at 9:30 renders as the ongoing
user's record (anchor 9:00) before the upcoming user's (anchor 10:00). -/
theorem groupSchedule_sorted_stable_witness :
    List.Pairwise (fun a b => a.start_time.instant ≤ b.start_time.instant)
      [demoRecOn, demoRecUp] :=
  (groupSchedule_sorted_stable [demoEntryUp, demoEntryOn] demoNow930
    [demoRecOn, demoRecUp] (by rfl)).1

/-! Missing-feed handling lemmas. -/

theorem resolveGroupRecords_skip_missing {now : PyDateTime} {e : GroupEntry}
    (hm : e.feed = FeedFile.missing) :
    ∀ pre post : List GroupEntry,
      resolveGroupRecords (pre ++ e :: post) now = resolveGroupRecords (pre ++ post) now := by
  intro pre
  induction pre with
  | nil =>
    intro post
    have hre : resolveEntry now e = Except.ok none := by simp [resolveEntry, hm]
    cases hpost : resolveGroupRecords post now <;>
      simp [resolveGroupRecords, hre, hpost]
  | cons p pre2 ih =>
    intro post
    cases hpe : resolveEntry now p with
    | error er => simp [resolveGroupRecords, hpe]
    | ok r => simp [resolveGroupRecords, hpe, ih post]

theorem resolveGroupRecords_all_missing {now : PyDateTime} :
    ∀ entries : List GroupEntry, (∀ x ∈ entries, x.feed = FeedFile.missing) →
      resolveGroupRecords entries now = Except.ok [] := by
  intro entries
  induction entries with
  | nil => intro _; rfl
  | cons x rest ih =>
    intro hall
    have hx : resolveEntry now x = Except.ok none := by
      simp [resolveEntry, hall x (List.mem_cons_self x rest)]
    simp [resolveGroupRecords, hx,
      ih (fun y hy => hall y (List.mem_cons_of_mem x hy))]

/-- C7 counterexample: a binding whose feed file exists but cannot be
opened is NOT silently omitted: the whole group query raises `OSError`
instead of producing the plain empty-result message, even though no binding
yields a readable feed. -/
theorem group_unreadable_raises :
    showGroupSchedule [demoEntryUnreadable] demoNow930 = Except.error PyError.osError := by
  rfl

/-- C7 (amended): a binding whose feed file is MISSING is silently omitted
(removing it from the roster leaves the aggregation unchanged), and when
every binding's feed file is missing — or the roster is empty — the query
yields the plain empty-result message, not an exception; a feed that exists
but cannot be read or parsed instead raises and aborts the whole query. -/
theorem group_missing_skipped (now : PyDateTime) (pre post entries : List GroupEntry)
    (e : GroupEntry) :
    (e.feed = FeedFile.missing →
      resolveGroupRecords (pre ++ e :: post) now = resolveGroupRecords (pre ++ post) now) ∧
    ((∀ x ∈ entries, x.feed = FeedFile.missing) →
      showGroupSchedule entries now = Except.ok GroupReply.emptyMessage) :=
  ⟨fun hm => resolveGroupRecords_skip_missing hm pre post,
   fun hall => by simp [showGroupSchedule, resolveGroupRecords_all_missing entries hall]⟩

/-- Witness for C7 (amended): a one-user roster whose feed file is missing
yields the plain empty message. -/
theorem group_missing_skipped_witness :
    showGroupSchedule [demoEntryMissing] demoNow930 = Except.ok GroupReply.emptyMessage :=
  (group_missing_skipped demoNow930 [] [] [demoEntryMissing] demoEntryMissing).2 (by decide)

/-! Parse-abort lemmas. -/

theorem parseEvent_error_of_missing {c : VComponent}
    (h : c.dtstart = none ∨ c.dtend = none) :
    ∃ er, parseEvent c = Except.error er := by
  rcases h with h | h
  · exact ⟨PyError.attributeError, by simp [parseEvent, h]⟩
  · cases hs : c.dtstart with
    | none => exact ⟨PyError.attributeError, by simp [parseEvent, hs]⟩
    | some vs => exact ⟨PyError.attributeError, by simp [parseEvent, hs, h]⟩

theorem parseEvent_error_of_dateOnly {c : VComponent}
    (h : hasDateOnlyB c.dtstart = true ∨ hasDateOnlyB c.dtend = true) :
    ∃ er, parseEvent c = Except.error er := by
  cases hs : c.dtstart with
  | none => exact ⟨PyError.attributeError, by simp [parseEvent, hs]⟩
  | some vs =>
    cases he : c.dtend with
    | none => exact ⟨PyError.attributeError, by simp [parseEvent, hs, he]⟩
    | some ve =>
      rcases h with h | h
      · rw [hs] at h
        cases vs with
        | dt d => simp [hasDateOnlyB] at h
        | dateOnly n =>
          exact ⟨PyError.typeError, by simp [parseEvent, hs, he, normalizeDt]⟩
      · rw [he] at h
        cases ve with
        | dt d => simp [hasDateOnlyB] at h
        | dateOnly n =>
          cases vs with
          | dt d0 =>
            cases hns : normalizeDt (DtValue.dt d0) with
            | error er => exact ⟨er, by simp [parseEvent, hs, he, hns]⟩
            | ok s =>
              have hnd : normalizeDt (DtValue.dateOnly n) =
                  Except.error PyError.typeError := rfl
              exact ⟨PyError.typeError, by simp [parseEvent, hs, he, hns, hnd]⟩
          | dateOnly m =>
            exact ⟨PyError.typeError, by simp [parseEvent, hs, he, normalizeDt]⟩

theorem parseIcs_error_of_event {comps : List VComponent}
    (h : ∃ c ∈ comps, c.name = "VEVENT" ∧ ∃ er0, parseEvent c = Except.error er0) :
    ∃ er, parseIcs comps = Except.error er := by
  induction comps with
  | nil => simp at h
  | cons c rest ih =>
    rcases h with ⟨x, hx, hname, er0, hpe⟩
    rcases List.mem_cons.mp hx with he | hm
    · subst he
      exact ⟨er0, by simp [parseIcs, hname, hpe]⟩
    · by_cases hn : c.name = "VEVENT"
      · cases hpe2 : parseEvent c with
        | error er2 => exact ⟨er2, by simp [parseIcs, hn, hpe2]⟩
        | ok k =>
          obtain ⟨er, hrest⟩ := ih ⟨x, hm, hname, er0, hpe⟩
          exact ⟨er, by simp [parseIcs, hn, hpe2, hrest]⟩
      · obtain ⟨er, hrest⟩ := ih ⟨x, hm, hname, er0, hpe⟩
        exact ⟨er, by simp [parseIcs, hn, hrest]⟩

/-- C8 counterexample: one event entry without `DTEND` aborts the whole
parse (`AttributeError`): the well-formed first entry's record is not
returned either. -/
theorem parse_missing_field_counterexample :
    parseIcs [demoCompNaive, demoCompNoEnd] = Except.error PyError.attributeError := by
  rfl

/-- C8 (amended): a missing required start/end field on any event entry
aborts the entire parse with an error; the parser returns no records at
all rather than skipping the single malformed entry. -/
theorem parse_missing_field_aborts (comps : List VComponent)
    (h : ∃ c ∈ comps, c.name = "VEVENT" ∧ (c.dtstart = none ∨ c.dtend = none)) :
    ∃ er, parseIcs comps = Except.error er := by
  rcases h with ⟨c, hm, hn, hmiss⟩
  obtain ⟨er0, hpe⟩ := parseEvent_error_of_missing hmiss
  exact parseIcs_error_of_event ⟨c, hm, hn, er0, hpe⟩

/-- Witness for C8 (amended): the two-entry demo feed with a missing
`DTEND` fails to parse. -/
theorem parse_missing_field_aborts_witness :
    ∃ er, parseIcs [demoCompNaive, demoCompNoEnd] = Except.error er :=
  parse_missing_field_aborts [demoCompNaive, demoCompNoEnd]
    ⟨demoCompNoEnd, by decide, rfl, Or.inr rfl⟩

/-- Auxiliary: a `Forall₂` relation gives, for each right element, a
related left element. -/
theorem forall2_exists_left {α β : Type} {R : α → β → Prop} :
    ∀ {l1 : List α} {l2 : List β}, List.Forall₂ R l1 l2 →
      ∀ b ∈ l2, ∃ a ∈ l1, R a b := by
  intro l1 l2 hf
  induction hf with
  | nil => intro b hb; simp at hb
  | cons hr ht ih =>
    intro b hb
    rcases List.mem_cons.mp hb with he | hm
    · subst he
      exact ⟨_, List.mem_cons_self _ _, hr⟩
    · obtain ⟨a, ha, har⟩ := ih b hm
      exact ⟨a, List.mem_cons_of_mem _ ha, har⟩

/-- C9 counterexample: the parser performs no `start < end` check: a feed
whose event ends before it starts parses successfully into a record
violating the invariant. -/
theorem parse_reversed_counterexample :
    parseIcs [demoCompReversed] = Except.ok [demoCourseReversed] ∧
      ¬(demoCourseReversed.start_time.instant < demoCourseReversed.end_time.instant) :=
  ⟨by rfl, by decide⟩

/-- Auxiliary: a `Forall₂` relation gives, for each left element, a
related right element. -/
theorem forall2_exists_right {α β : Type} {R : α → β → Prop} :
    ∀ {l1 : List α} {l2 : List β}, List.Forall₂ R l1 l2 →
      ∀ a ∈ l1, ∃ b ∈ l2, R a b := by
  intro l1 l2 hf
  induction hf with
  | nil => intro a ha; simp at ha
  | cons hr ht ih =>
    intro a ha
    rcases List.mem_cons.mp ha with he | hm
    · subst he
      exact ⟨_, List.mem_cons_self _ _, hr⟩
    · obtain ⟨b, hb, hbr⟩ := ih a hm
      exact ⟨b, List.mem_cons_of_mem _ hb, hbr⟩

/-- C9 (amended): the parser copies the normalized start/end of each event
without enforcing any ordering, so `start < end` holds for every output
record exactly when every source event's normalized start precedes its
normalized end. -/
theorem parse_ordered (comps : List VComponent) (cs : List Course)
    (h : parseIcs comps = Except.ok cs) :
    (∀ k ∈ cs, k.start_time.instant < k.end_time.instant) ↔
      (∀ c ∈ comps, c.name = "VEVENT" → orderedEventB c = true) := by
  constructor
  · intro hcs c hcm hname
    have hcf : c ∈ comps.filter (fun x => x.name == "VEVENT") :=
      List.mem_filter.mpr ⟨hcm, by simp [hname]⟩
    obtain ⟨k, hk, hpe⟩ := forall2_exists_right (parseIcs_ok_forall2 h) c hcf
    obtain ⟨vs, ve, hs, he, hns, hne, _, _, _⟩ := parseEvent_eq_ok hpe
    simpa [orderedEventB, hs, he, hns, hne] using hcs k hk
  · intro hord k hk
    obtain ⟨c, hcf, hpe⟩ := forall2_exists_left (parseIcs_ok_forall2 h) k hk
    obtain ⟨hcm, hcv⟩ := List.mem_filter.mp hcf
    have hname : c.name = "VEVENT" := by simpa using hcv
    have hob := hord c hcm hname
    obtain ⟨vs, ve, hs, he, hns, hne, _, _, _⟩ := parseEvent_eq_ok hpe
    simpa [orderedEventB, hs, he, hns, hne] using hob

/-- Witness for C9 (amended): the well-ordered naive demo event parses to a
record with `start < end`. -/
theorem parse_ordered_witness :
    demoCourseNaive.start_time.instant < demoCourseNaive.end_time.instant :=
  (parse_ordered [demoCompNaive] [demoCourseNaive] (by rfl)).mpr (by decide)
    demoCourseNaive (by decide)

/-- C10: any feed containing an event entry whose start or end is a
date-only (all-day) value fails to parse entirely: the value has no
`tzinfo` attribute, so the timezone-attachment branch calls
`date.replace(tzinfo=...)`, which raises `TypeError`, aborting every event
in the feed. -/
theorem parse_allday_aborts (comps : List VComponent)
    (h : ∃ c ∈ comps, c.name = "VEVENT" ∧
      (hasDateOnlyB c.dtstart = true ∨ hasDateOnlyB c.dtend = true)) :
    ∃ er, parseIcs comps = Except.error er := by
  rcases h with ⟨c, hm, hn, hdo⟩
  obtain ⟨er0, hpe⟩ := parseEvent_error_of_dateOnly hdo
  exact parseIcs_error_of_event ⟨c, hm, hn, er0, hpe⟩

/-- Witness for C10: a feed with one good timed event and one all-day
event fails to parse as a whole. -/
theorem parse_allday_aborts_witness :
    ∃ er, parseIcs [demoCompNaive, demoCompAllDay] = Except.error er :=
  parse_allday_aborts [demoCompNaive, demoCompAllDay]
    ⟨demoCompAllDay, by decide, rfl, Or.inl rfl⟩
